import Mathlib

/-!
Verification of `subset_sum_ordering.py`: a shallow embedding of the three
functions `subset_sum_ordering`, `build_digit_map` and `verify`, followed by
theorems settling the specification's claims about them.

Python integers are modelled by `Nat` (every claim restricts attention to
positive integers, and the program only adds and compares).  Python lists are
`List`, tuples of two naturals are `Nat × Nat`, and the `IndexError` a list
subscript can raise is modelled by `Option`: a function that can raise returns
`none` in exactly the situations where the Python raises.
-/

namespace SubsetSumOrdering

/-- Python's `sorted` on a list of naturals: ascending order.  `sorted` is a
stable sort; on naturals compared by `≤` any sort agrees with it, and
`insertionSort` is itself stable. -/
def pySorted (nums : List Nat) : List Nat :=
  List.insertionSort (· ≤ ·) nums

/-- The `for num in sorted_nums` loop of `subset_sum_ordering`, lines 35-41:
state is (remaining input, current_group, prefix_sum, groups); on exhaustion
the final `groups.append(current_group)` of line 42 is performed. -/
def partitionLoop : List Nat → List Nat → Nat → List (List Nat) → List (List Nat)
  | [], current, _, groups => groups ++ [current]
  | num :: rest, current, prefixSum, groups =>
    if current ≠ [] ∧ prefixSum < num then
      partitionLoop rest [num] (prefixSum + num) (groups ++ [current])
    else
      partitionLoop rest (current ++ [num]) (prefixSum + num) groups

/-- `subset_sum_ordering(nums)`, lines 4-44: returns `(partition, radices)`. -/
def subset_sum_ordering (nums : List Nat) : List (List Nat) × List Nat :=
  if nums = [] then ([], [])
  else
    let groups := partitionLoop (pySorted nums) [] 0 []
    (groups, groups.map (fun g => 2 ^ g.length))

/-- `sum(group[i] for i in range(n) if mask >> i & 1)` of line 58. -/
def subsetSum (group : List Nat) (mask : Nat) : Nat :=
  (((List.range group.length).filter (fun i => Nat.testBit mask i)).map
    (fun i => group.getD i 0)).sum

/-- Python's ordering on pairs `(sum_contribution, mask)`: lexicographic,
the order `sorted` uses on 2-tuples. -/
def pairLe (p q : Nat × Nat) : Prop :=
  p.1 < q.1 ∨ (p.1 = q.1 ∧ p.2 ≤ q.2)

instance : DecidableRel pairLe := fun p q => by
  unfold pairLe; infer_instance

/-- `build_digit_map(group)`, lines 47-60: all `(subset sum, mask)` pairs for
`mask in range(2 ** n)`, sorted lexicographically.  The pairs have pairwise
distinct second components, so every sort by `pairLe` yields the same list and
stability of the sort is immaterial. -/
def build_digit_map (group : List Nat) : List (Nat × Nat) :=
  List.insertionSort pairLe
    ((List.range (2 ^ group.length)).map (fun mask => (subsetSum group mask, mask)))

/-- The diagnostic dictionary built at lines 90-95. -/
structure Diag where
  at_index : Nat
  digits : List Nat
  sum : Nat
  prev_sum : Nat
deriving DecidableEq, Repr

/-- `itertools.product` over a list of lists: the first list varies slowest,
the last varies fastest, exactly as in Python. -/
def pyProduct : List (List Nat) → List (List Nat)
  | [] => [[]]
  | l :: ls => l.flatMap (fun x => (pyProduct ls).map (fun t => x :: t))

/-- `sum(digit_maps[g][digits[g]][0] for g in indices)`: left-to-right, the
first out-of-range subscript raises (returns `none`). -/
def sumTerms? (digitMaps : List (List (Nat × Nat))) (digits : List Nat) :
    List Nat → Option Nat
  | [] => some 0
  | g :: gs =>
    match (digitMaps.get? g).bind
        (fun dm => (digits.get? g).bind (fun d => (dm.get? d).map Prod.fst)) with
    | none => none
    | some v => (sumTerms? digitMaps digits gs).map (fun s => v + s)

/-- The total subset sum of line 87, over `range(k)`. -/
def totalSum? (digitMaps : List (List (Nat × Nat))) (digits : List Nat)
    (k : Nat) : Option Nat :=
  sumTerms? digitMaps digits (List.range k)

/-- The enumeration loop of lines 83-96: `i` is the enumeration index,
`prevSum` the previous total (`None` before the first tuple). -/
def verifyLoop (digitMaps : List (List (Nat × Nat))) (k : Nat) :
    List (List Nat) → Nat → Option Nat → Option (Bool × Option Diag)
  | [], _, _ => some (true, none)
  | digits :: rest, i, prevSum =>
    match totalSum? digitMaps digits k with
    | none => none
    | some total =>
      match prevSum with
      | some p =>
        if total < p then some (false, some ⟨i, digits, total, p⟩)
        else verifyLoop digitMaps k rest (i + 1) (some total)
      | none => verifyLoop digitMaps k rest (i + 1) (some total)

/-- Forcing a generator `(h(j) for j in js)` left to right, raising (`none`)
at the first failing subscript. -/
def forceAll (h : Nat → Option (List Nat)) : List Nat → Option (List (List Nat))
  | [] => some []
  | j :: js => (h j).bind (fun r => (forceAll h js).map (fun rs => r :: rs))

/-- `(range(radices[j]) for j in range(k - 1, -1, -1))` of line 84, forced by
the `*` unpacking: raises (`none`) if some `radices[j]` subscript is out of
range. -/
def digitRanges? (radices : List Nat) (k : Nat) : Option (List (List Nat)) :=
  forceAll (fun j => (radices.get? j).map List.range) ((List.range k).reverse)

/-- `verify(partition, radices)`, lines 63-98.  A `some` result is the
function's Python return value; `none` models an uncaught `IndexError`. -/
def verify (partition : List (List Nat)) (radices : List Nat) :
    Option (Bool × Option Diag) :=
  let k := partition.length
  if k = 0 then some (true, none)
  else
    let digitMaps := partition.map build_digit_map
    match digitRanges? radices k with
    | none => none
    | some ranges =>
      let tuples := (pyProduct ranges).map List.reverse
      verifyLoop digitMaps k tuples 0 none

/-- The group-domination invariant of the partitioner: every group after the
first is non-empty and each of its elements strictly exceeds the sum of all
elements of the strictly earlier groups. -/
def Dominated (gs : List (List Nat)) : Prop :=
  ∀ i, 0 < i → i < gs.length →
    gs.getD i [] ≠ [] ∧ ∀ x ∈ gs.getD i [], ((gs.take i).flatten).sum < x

lemma dominated_append {gs : List (List Nat)} {c : List Nat}
    (hgs : Dominated gs) (hc : c ≠ []) (hdom : ∀ x ∈ c, gs.flatten.sum < x) :
    Dominated (gs ++ [c]) := by
  intro i hi hlen
  simp only [List.length_append, List.length_singleton] at hlen
  rcases Nat.lt_succ_iff_lt_or_eq.mp hlen with h | h
  · rw [List.getD_append _ _ _ _ h, List.take_append_of_le_length h.le]
    exact hgs i hi h
  · subst h
    rw [List.getD_append_right _ _ _ _ le_rfl, Nat.sub_self,
      List.take_left' rfl]
    exact ⟨hc, hdom⟩

lemma dominated_snoc_elem {gs : List (List Nat)} {c : List Nat} {num : Nat}
    (h : Dominated (gs ++ [c])) (hc : c ≠ []) (hle : ∀ y ∈ c, y ≤ num) :
    Dominated (gs ++ [c ++ [num]]) := by
  intro i hi hlen
  simp only [List.length_append, List.length_singleton] at hlen
  rcases Nat.lt_succ_iff_lt_or_eq.mp hlen with hlt | heq
  · rw [List.getD_append _ _ _ _ hlt, List.take_append_of_le_length hlt.le]
    have := h i hi (by simp [List.length_append]; omega)
    rwa [List.getD_append _ _ _ _ hlt, List.take_append_of_le_length hlt.le] at this
  · subst heq
    rw [List.getD_append_right _ _ _ _ le_rfl, Nat.sub_self,
      List.take_left' rfl]
    have hold := h gs.length hi (by simp)
    rw [List.getD_append_right _ _ _ _ le_rfl, Nat.sub_self,
      List.take_left' rfl] at hold
    refine ⟨by simp, ?_⟩
    intro x hx
    rcases List.mem_append.mp hx with hx | hx
    · exact hold.2 x hx
    · rcases List.mem_singleton.mp hx with rfl
      obtain ⟨y, hy⟩ := List.exists_mem_of_ne_nil c hc
      exact lt_of_lt_of_le (hold.2 y hy) (hle y hy)

lemma partitionLoop_dominated (rest : List Nat) :
    ∀ current prefixSum groups,
      current ≠ [] →
      prefixSum = groups.flatten.sum + current.sum →
      Dominated (groups ++ [current]) →
      List.Sorted (· ≤ ·) (current ++ rest) →
      Dominated (partitionLoop rest current prefixSum groups) := by
  induction rest with
  | nil =>
    intro c p gs _ _ hdom _
    simpa [partitionLoop] using hdom
  | cons num rest ih =>
    intro c p gs hc hp hdom hsort
    by_cases h : c ≠ [] ∧ p < num
    · rw [partitionLoop, if_pos h]
      refine ih [num] (p + num) (gs ++ [c]) (by simp) ?_ ?_ ?_
      · simp [hp]
      · refine dominated_append hdom (by simp) ?_
        intro x hx
        rcases List.mem_singleton.mp hx with rfl
        simpa [hp] using h.2
      · simpa using hsort.sublist (List.sublist_append_right c (num :: rest))
    · rw [partitionLoop, if_neg h]
      refine ih (c ++ [num]) (p + num) gs (by simp) ?_ ?_ ?_
      · simp [hp]; omega
      · refine dominated_snoc_elem hdom hc ?_
        intro y hy
        have := (List.pairwise_append.mp hsort).2.2 y hy num (by simp)
        exact this
      · rw [List.append_assoc]
        simpa using hsort

lemma partitionLoop_flatten (rest : List Nat) :
    ∀ current prefixSum groups,
      (partitionLoop rest current prefixSum groups).flatten =
        groups.flatten ++ current ++ rest := by
  induction rest with
  | nil => intro c p gs; simp [partitionLoop]
  | cons num rest ih =>
    intro c p gs
    by_cases h : c ≠ [] ∧ p < num
    · rw [partitionLoop, if_pos h, ih]; simp
    · rw [partitionLoop, if_neg h, ih]; simp

lemma subset_sum_ordering_fst (nums : List Nat) (hne : nums ≠ []) :
    (subset_sum_ordering nums).1 = partitionLoop (pySorted nums) [] 0 [] := by
  simp [subset_sum_ordering, hne]

/-- C4: for every sequence of positive integers, the partition returned by
`subset_sum_ordering` satisfies group domination: every group with index
`i ≥ 1` is non-empty and each of its elements (hence also its minimum)
strictly exceeds the sum of all elements of groups `0..i-1`. -/
theorem c4_group_domination (nums : List Nat) (hpos : ∀ x ∈ nums, 0 < x) :
    ∀ i, 0 < i → i < (subset_sum_ordering nums).1.length →
      (subset_sum_ordering nums).1.getD i [] ≠ [] ∧
      ∀ x ∈ (subset_sum_ordering nums).1.getD i [],
        ((((subset_sum_ordering nums).1.take i).flatten).sum < x) := by
  by_cases hne : nums = []
  · subst hne
    intro i hi hlen
    simp [subset_sum_ordering] at hlen
  · rw [subset_sum_ordering_fst nums hne]
    cases hs : pySorted nums with
    | nil =>
      have hp := List.perm_insertionSort (· ≤ ·) nums
      rw [show List.insertionSort (· ≤ ·) nums = pySorted nums from rfl, hs] at hp
      exact absurd hp.symm.eq_nil hne
    | cons m rest =>
      have step : partitionLoop (m :: rest) [] 0 [] =
          partitionLoop rest [m] (0 + m) [] := by
        rw [partitionLoop, if_neg (by simp)]
        rfl
      rw [step]
      refine partitionLoop_dominated rest [m] (0 + m) [] (by simp) (by simp) ?_ ?_
      · intro i hi hlen
        simp at hlen
        omega
      · have := List.sorted_insertionSort (· ≤ ·) nums
        rw [show List.insertionSort (· ≤ ·) nums = pySorted nums from rfl, hs] at this
        simpa using this

/-- C4 witness at `nums = [1, 5, 5]`, `i = 1`: the partition is
`[[1], [5, 5]]` and `1 < 5` for both elements of group 1. -/
theorem c4_group_domination_witness :
    (∀ x ∈ [1, 5, 5], 0 < x) ∧
    ((subset_sum_ordering [1, 5, 5]).1.getD 1 [] ≠ [] ∧
      ∀ x ∈ (subset_sum_ordering [1, 5, 5]).1.getD 1 [],
        ((((subset_sum_ordering [1, 5, 5]).1.take 1).flatten).sum < x)) :=
  ⟨by decide, c4_group_domination [1, 5, 5] (by decide) 1 (by decide) (by decide)⟩

/-- C5: for every non-empty sequence of positive integers the groups returned
by `subset_sum_ordering`, concatenated in order, are exactly the input sorted
ascending — a sorted permutation of the input, so no element is lost or
duplicated — and the radix vector is `2 ^ (group length)` groupwise. -/
theorem c5_partition_covers_input (nums : List Nat) (hne : nums ≠ [])
    (hpos : ∀ x ∈ nums, 0 < x) :
    (subset_sum_ordering nums).1.flatten = pySorted nums ∧
    ((subset_sum_ordering nums).1.flatten).Perm nums ∧
    List.Sorted (· ≤ ·) (subset_sum_ordering nums).1.flatten ∧
    (subset_sum_ordering nums).2 =
      (subset_sum_ordering nums).1.map (fun g => 2 ^ g.length) := by
  have hflat : (subset_sum_ordering nums).1.flatten = pySorted nums := by
    rw [subset_sum_ordering_fst nums hne, partitionLoop_flatten]
    simp
  refine ⟨hflat, ?_, ?_, ?_⟩
  · rw [hflat]
    exact List.perm_insertionSort (· ≤ ·) nums
  · rw [hflat]
    exact List.sorted_insertionSort (· ≤ ·) nums
  · simp [subset_sum_ordering, hne]

/-- C5 witness at `nums = [1, 5, 5]`. -/
theorem c5_partition_covers_input_witness :
    ([1, 5, 5] ≠ ([] : List Nat)) ∧ (∀ x ∈ [1, 5, 5], 0 < x) ∧
    ((subset_sum_ordering [1, 5, 5]).1.flatten = pySorted [1, 5, 5] ∧
      ((subset_sum_ordering [1, 5, 5]).1.flatten).Perm [1, 5, 5] ∧
      List.Sorted (· ≤ ·) (subset_sum_ordering [1, 5, 5]).1.flatten ∧
      (subset_sum_ordering [1, 5, 5]).2 =
        (subset_sum_ordering [1, 5, 5]).1.map (fun g => 2 ^ g.length)) :=
  ⟨by decide, by decide, c5_partition_covers_input [1, 5, 5] (by decide) (by decide)⟩

/-- C8: `subset_sum_ordering` applied to a sequence of positive integers and
to any permutation of it returns identical results (same groups, same
radices), and repeated calls on the same input trivially agree. -/
theorem c8_permutation_invariance (nums nums' : List Nat)
    (hpos : ∀ x ∈ nums, 0 < x) (hperm : nums.Perm nums') :
    subset_sum_ordering nums = subset_sum_ordering nums' ∧
    subset_sum_ordering nums = subset_sum_ordering nums := by
  have hsort : pySorted nums = pySorted nums' :=
    List.eq_of_perm_of_sorted
      (((List.perm_insertionSort (· ≤ ·) nums).trans hperm).trans
        (List.perm_insertionSort (· ≤ ·) nums').symm)
      (List.sorted_insertionSort (· ≤ ·) nums)
      (List.sorted_insertionSort (· ≤ ·) nums')
  refine ⟨?_, rfl⟩
  by_cases hne : nums = []
  · subst hne
    rw [hperm.nil_eq]
  · have hne' : nums' ≠ [] := fun hh => hne (hperm.trans (hh ▸ List.Perm.refl _)).eq_nil
    simp [subset_sum_ordering, hne, hne', hsort]

/-- C8 witness at `nums = [2, 1, 5]`, `nums' = [5, 1, 2]`. -/
theorem c8_permutation_invariance_witness :
    (∀ x ∈ [2, 1, 5], 0 < x) ∧ (List.Perm [2, 1, 5] [5, 1, 2]) ∧
    (subset_sum_ordering [2, 1, 5] = subset_sum_ordering [5, 1, 2] ∧
      subset_sum_ordering [2, 1, 5] = subset_sum_ordering [2, 1, 5]) :=
  ⟨by decide, by decide,
    c8_permutation_invariance [2, 1, 5] [5, 1, 2] (by decide) (by decide)⟩

/-! ### Digit maps -/

instance : IsTotal (Nat × Nat) pairLe :=
  ⟨fun p q => by unfold pairLe; omega⟩

instance : IsTrans (Nat × Nat) pairLe :=
  ⟨fun p q r hpq hqr => by unfold pairLe at hpq hqr ⊢; omega⟩

lemma subsetSum_zero (group : List Nat) : subsetSum group 0 = 0 := by
  unfold subsetSum
  rw [List.filter_eq_nil_iff.mpr (fun a _ => by simp [Nat.zero_testBit])]
  simp

lemma build_digit_map_perm (group : List Nat) :
    List.Perm (build_digit_map group)
      ((List.range (2 ^ group.length)).map
        (fun mask => (subsetSum group mask, mask))) :=
  List.perm_insertionSort pairLe _

lemma build_digit_map_length (group : List Nat) :
    (build_digit_map group).length = 2 ^ group.length := by
  rw [(build_digit_map_perm group).length_eq, List.length_map, List.length_range]

lemma build_digit_map_sorted (group : List Nat) :
    List.Sorted pairLe (build_digit_map group) :=
  List.sorted_insertionSort pairLe _

/-- C6: for every group of positive integers, `build_digit_map` returns
exactly `2 ^ n` entries (`n` the group size); every entry pairs the sum of
the group values selected by its bitmask with that bitmask; the bitmasks are
exactly `0 .. 2 ^ n - 1`, each once; the entries are sorted by sum with ties
broken by ascending bitmask (the lexicographic order `pairLe`); and the first
entry (digit 0) is `(0, 0)`, the empty subset. -/
theorem c6_build_digit_map_spec (group : List Nat) (hpos : ∀ x ∈ group, 0 < x) :
    (build_digit_map group).length = 2 ^ group.length ∧
    (∀ p ∈ build_digit_map group, p.1 = subsetSum group p.2) ∧
    List.Perm ((build_digit_map group).map Prod.snd)
      (List.range (2 ^ group.length)) ∧
    List.Sorted pairLe (build_digit_map group) ∧
    (build_digit_map group).head? = some (0, 0) := by
  refine ⟨build_digit_map_length group, ?_, ?_, build_digit_map_sorted group, ?_⟩
  · intro p hp
    rcases List.mem_map.mp ((build_digit_map_perm group).subset hp) with ⟨mask, _, rfl⟩
    rfl
  · refine ((build_digit_map_perm group).map Prod.snd).trans ?_
    rw [List.map_map,
      show (Prod.snd ∘ fun mask : Nat => (subsetSum group mask, mask)) = id from rfl,
      List.map_id]
  · have hmem : ((0 : Nat), (0 : Nat)) ∈ build_digit_map group := by
      refine (build_digit_map_perm group).mem_iff.mpr ?_
      exact List.mem_map.mpr ⟨0, List.mem_range.mpr (Nat.pos_pow_of_pos _ (by omega)),
        by rw [subsetSum_zero]⟩
    cases hbd : build_digit_map group with
    | nil => rw [hbd] at hmem; cases hmem
    | cons p t =>
      rw [hbd] at hmem
      have hsorted := build_digit_map_sorted group
      rw [hbd] at hsorted
      rcases List.mem_cons.mp hmem with h0 | h0
      · rw [List.head?_cons, ← h0]
      · have hle : pairLe p (0, 0) := List.rel_of_sorted_cons hsorted _ h0
        rcases p with ⟨a, b⟩
        unfold pairLe at hle
        have ha : a = 0 ∧ b = 0 := by omega
        rw [List.head?_cons, ha.1, ha.2]

/-- C6 witness at `group = [2, 3]`. -/
theorem c6_build_digit_map_spec_witness :
    (∀ x ∈ [2, 3], 0 < x) ∧
    ((build_digit_map [2, 3]).length = 2 ^ ([2, 3] : List Nat).length ∧
      (∀ p ∈ build_digit_map [2, 3], p.1 = subsetSum [2, 3] p.2) ∧
      List.Perm ((build_digit_map [2, 3]).map Prod.snd)
        (List.range (2 ^ ([2, 3] : List Nat).length)) ∧
      List.Sorted pairLe (build_digit_map [2, 3]) ∧
      (build_digit_map [2, 3]).head? = some (0, 0)) :=
  ⟨by decide, c6_build_digit_map_spec [2, 3] (by decide)⟩

/-! ### The verifier's enumeration -/

/-- The sequence of digit tuples `verify` enumerates, aligned with the
partition (index 0 least significant), for a given radix vector: the Python
`product` over the reversed radix ranges, each tuple re-reversed. -/
def enumDigits (radices : List Nat) : List (List Nat) :=
  (pyProduct (radices.reverse.map List.range)).map List.reverse

/-- Modelled from the spec: the mixed-radix digits of `n` for the given radix
vector, least significant digit first (group 0 fastest). -/
def natToDigits : List Nat → Nat → List Nat
  | [], _ => []
  | r :: rs, n => n % r :: natToDigits rs (n / r)

/-- The total of line 87 as a total function (used where every subscript is
known to be in bounds). -/
def totalSumD (digitMaps : List (List (Nat × Nat))) (digits : List Nat)
    (k : Nat) : Nat :=
  ((List.range k).map
    (fun g => ((digitMaps.getD g []).getD (digits.getD g 0) (0, 0)).1)).sum

/-- Modelled from the spec: scanning digit tuples for the first position
whose total is strictly below the previous total, recording the diagnostic of
§3 there. -/
def firstViolAux (f : List Nat → Nat) : List (List Nat) → Nat → Nat → Option Diag
  | [], _, _ => none
  | d :: ds, i, prev =>
    if f d < prev then some ⟨i, d, f d, prev⟩
    else firstViolAux f ds (i + 1) (f d)

/-- Modelled from the spec: the first order violation in a tuple sequence,
`none` when the totals are non-decreasing. -/
def firstViol (f : List Nat → Nat) : List (List Nat) → Option Diag
  | [] => none
  | d :: ds => firstViolAux f ds 1 (f d)

lemma mem_pyProduct {ls : List (List Nat)} :
    ∀ {d : List Nat}, d ∈ pyProduct ls ↔ List.Forall₂ (· ∈ ·) d ls := by
  induction ls with
  | nil =>
    intro d
    simp [pyProduct, List.forall₂_nil_right_iff]
  | cons l ls ih =>
    intro d
    simp only [pyProduct, List.mem_flatMap, List.mem_map]
    constructor
    · rintro ⟨x, hx, t, ht, rfl⟩
      exact List.Forall₂.cons hx (ih.mp ht)
    · intro h
      cases h with
      | cons hx ht => exact ⟨_, hx, _, ih.mpr ht, rfl⟩

lemma sumTerms?_eq_some (dms : List (List (Nat × Nat))) (digits : List Nat) :
    ∀ gs : List Nat,
      (∀ g ∈ gs, g < dms.length ∧ g < digits.length ∧
        digits.getD g 0 < (dms.getD g []).length) →
      sumTerms? dms digits gs =
        some ((gs.map
          (fun g => ((dms.getD g []).getD (digits.getD g 0) (0, 0)).1)).sum) := by
  intro gs
  induction gs with
  | nil => intro _; rfl
  | cons g gs ih =>
    intro h
    obtain ⟨h1, h2, h3⟩ := h g (List.mem_cons_self g gs)
    have e1 : dms.get? g = some (dms.getD g []) := by
      rw [List.getD_eq_getElem dms [] h1, List.get?_eq_getElem?,
        List.getElem?_eq_getElem h1]
    have e2 : digits.get? g = some (digits.getD g 0) := by
      rw [List.getD_eq_getElem digits 0 h2, List.get?_eq_getElem?,
        List.getElem?_eq_getElem h2]
    have e3 : (dms.getD g []).get? (digits.getD g 0) =
        some ((dms.getD g []).getD (digits.getD g 0) (0, 0)) := by
      rw [List.getD_eq_getElem (dms.getD g []) (0, 0) h3, List.get?_eq_getElem?,
        List.getElem?_eq_getElem h3]
    rw [sumTerms?, e1, e2]
    simp only [Option.some_bind]
    rw [e3]
    simp only [Option.map_some']
    rw [ih (fun a ha => h a (List.mem_cons_of_mem _ ha))]
    simp

lemma enumDigits_forall₂ {radices : List Nat} {d : List Nat}
    (hd : d ∈ enumDigits radices) :
    List.Forall₂ (fun x r => x < r) d radices := by
  unfold enumDigits at hd
  rcases List.mem_map.mp hd with ⟨e, he, rfl⟩
  have h2 : List.Forall₂ (fun x r => x ∈ List.range r) e radices.reverse :=
    List.forall₂_map_right_iff.mp (mem_pyProduct.mp he)
  have h3 := List.rel_reverse h2
  rw [List.reverse_reverse] at h3
  exact h3.imp (fun a b hab => List.mem_range.mp hab)

lemma enumDigits_bounds {partition : List (List Nat)} {d : List Nat}
    (hd : d ∈ enumDigits (partition.map (fun g => 2 ^ g.length))) :
    ∀ g ∈ List.range partition.length,
      g < (partition.map build_digit_map).length ∧ g < d.length ∧
      d.getD g 0 < ((partition.map build_digit_map).getD g []).length := by
  have h := enumDigits_forall₂ hd
  have hlen : d.length = partition.length := by
    have := h.length_eq
    simpa using this
  intro g hg
  have hgk : g < partition.length := List.mem_range.mp hg
  refine ⟨by simpa using hgk, by omega, ?_⟩
  have hget := (List.forall₂_iff_get.mp h).2 g (by omega) (by simpa using hgk)
  simp only [List.get_eq_getElem, List.getElem_map] at hget
  rw [List.getD_eq_getElem d 0 (by omega : g < d.length),
    List.getD_eq_getElem (partition.map build_digit_map) []
      (by simpa using hgk : g < (partition.map build_digit_map).length)]
  simp only [List.getElem_map]
  rw [build_digit_map_length]
  exact hget

lemma totalSum?_eq_totalSumD {partition : List (List Nat)} {d : List Nat}
    (hd : d ∈ enumDigits (partition.map (fun g => 2 ^ g.length))) :
    totalSum? (partition.map build_digit_map) d partition.length =
      some (totalSumD (partition.map build_digit_map) d partition.length) :=
  sumTerms?_eq_some _ _ _ (enumDigits_bounds hd)

lemma verifyLoop_eq_firstViolAux (dms : List (List (Nat × Nat))) (k : Nat)
    (f : List Nat → Nat) :
    ∀ ts : List (List Nat), (∀ d ∈ ts, totalSum? dms d k = some (f d)) →
      ∀ i p, verifyLoop dms k ts i (some p) =
        some (match firstViolAux f ts i p with
              | none => (true, none)
              | some diag => (false, some diag)) := by
  intro ts
  induction ts with
  | nil => intro _ i p; rfl
  | cons d ds ih =>
    intro h i p
    have hd := h d (List.mem_cons_self d ds)
    by_cases hlt : f d < p
    · simp [verifyLoop, hd, firstViolAux, hlt]
    · rw [verifyLoop, hd]
      simp only [firstViolAux, if_neg hlt]
      exact ih (fun d' hd' => h d' (List.mem_cons_of_mem _ hd')) (i + 1) (f d)

lemma forceAll_eq_some (h : Nat → Option (List Nat)) (f : Nat → List Nat) :
    ∀ js : List Nat, (∀ j ∈ js, h j = some (f j)) →
      forceAll h js = some (js.map f) := by
  intro js
  induction js with
  | nil => intro _; rfl
  | cons j js ih =>
    intro hh
    rw [forceAll, hh j (List.mem_cons_self j js),
      ih (fun a ha => hh a (List.mem_cons_of_mem _ ha))]
    rfl

lemma map_getD_range (l : List Nat) :
    (List.range l.length).map (fun j => l.getD j 0) = l := by
  induction l with
  | nil => rfl
  | cons a l ih =>
    rw [List.length_cons, List.range_succ_eq_map, List.map_cons, List.map_map,
      List.getD_cons_zero]
    have hmap : List.map ((fun j => (a :: l).getD j 0) ∘ Nat.succ)
        (List.range l.length) = List.map (fun j => l.getD j 0) (List.range l.length) :=
      List.map_congr_left
        (fun j _ => by simp [Function.comp_def, List.getD_cons_succ])
    rw [hmap, ih]

lemma digitRanges?_eq (radices : List Nat) (k : Nat) (hk : k = radices.length) :
    digitRanges? radices k = some (radices.reverse.map List.range) := by
  subst hk
  rw [digitRanges?,
    forceAll_eq_some _ (fun j => List.range (radices.getD j 0)) _ ?bounds]
  case bounds =>
    intro j hj
    have hjk : j < radices.length := by
      have := List.mem_reverse.mp hj
      exact List.mem_range.mp this
    show (radices.get? j).map List.range = some (List.range (radices.getD j 0))
    rw [List.getD_eq_getElem radices 0 hjk, List.get?_eq_getElem?,
      List.getElem?_eq_getElem hjk]
    rfl
  congr 1
  rw [List.map_reverse, List.map_reverse]
  congr 1
  conv_rhs => rw [← map_getD_range radices]
  rw [List.map_map]
  rfl

lemma flatMap_single_lists (l : List Nat) :
    (l.flatMap fun x => [[x]]) = l.map (fun x => [x]) := by
  induction l with
  | nil => rfl
  | cons a l ih => simp [ih]

lemma pyProduct_snoc (l : List Nat) (ls : List (List Nat)) :
    pyProduct (ls ++ [l]) =
      (pyProduct ls).flatMap (fun t => l.map (fun x => t ++ [x])) := by
  induction ls with
  | nil => simp [pyProduct, flatMap_single_lists]
  | cons a ls ih =>
    rw [List.cons_append, pyProduct, ih, pyProduct]
    simp [List.map_flatMap, List.flatMap_map, List.flatMap_assoc,
      Function.comp_def]

lemma map_range_mul (f : Nat → List Nat) (r : Nat) (P : Nat) :
    (List.range (P * r)).map f =
      (List.range P).flatMap
        (fun q => (List.range r).map (fun x => f (q * r + x))) := by
  induction P with
  | zero => simp
  | succ P ih =>
    rw [Nat.succ_mul, List.range_add, List.map_append, ih, List.range_succ,
      List.flatMap_append]
    congr 1
    simp [List.map_map, Function.comp]

lemma enumDigits_cons (r : Nat) (rs : List Nat) :
    enumDigits (r :: rs) =
      (enumDigits rs).flatMap (fun d => (List.range r).map (fun x => x :: d)) := by
  unfold enumDigits
  rw [List.reverse_cons, List.map_append]
  simp only [List.map_cons, List.map_nil]
  rw [pyProduct_snoc, List.map_flatMap, List.flatMap_map]
  simp [List.map_map, Function.comp_def, List.reverse_append]

lemma enumDigits_eq_counting (radices : List Nat) :
    enumDigits radices = (List.range radices.prod).map (natToDigits radices) := by
  induction radices with
  | nil => rfl
  | cons r rs ih =>
    rw [enumDigits_cons, ih, List.prod_cons, Nat.mul_comm r rs.prod,
      map_range_mul, List.flatMap_map, List.flatMap_def, List.flatMap_def]
    congr 1
    apply List.map_congr_left
    intro q _
    apply List.map_congr_left
    intro x hx
    have hxr : x < r := List.mem_range.mp hx
    show x :: natToDigits rs q = natToDigits (r :: rs) (q * r + x)
    rw [natToDigits]
    congr 1
    · rw [Nat.mul_comm q r, Nat.mul_add_mod, Nat.mod_eq_of_lt hxr]
    · rw [Nat.mul_comm q r, Nat.mul_add_div (by omega) q x,
        Nat.div_eq_of_lt hxr, Nat.add_zero]

lemma firstViolAux_none_iff (f : List Nat → Nat) :
    ∀ (ds : List (List Nat)) (i prev : Nat),
      (firstViolAux f ds i prev = none ↔
        List.Chain' (· ≤ ·) (prev :: ds.map f)) := by
  intro ds
  induction ds with
  | nil => intro i prev; simp [firstViolAux]
  | cons d ds ih =>
    intro i prev
    rw [List.map_cons, List.chain'_cons, firstViolAux]
    by_cases h : f d < prev
    · rw [if_pos h]
      constructor
      · intro hc; exact absurd hc (Option.some_ne_none _)
      · intro hc; exact absurd hc.1 (Nat.not_le.mpr h)
    · rw [if_neg h, ih (i + 1) (f d)]
      have hle : prev ≤ f d := Nat.le_of_not_lt h
      simp [hle]

lemma firstViol_none_iff (f : List Nat → Nat) (ds : List (List Nat)) :
    firstViol f ds = none ↔ List.Chain' (· ≤ ·) (ds.map f) := by
  cases ds with
  | nil => simp [firstViol]
  | cons d ds => rw [List.map_cons, firstViol, firstViolAux_none_iff]

/-- With the radices `subset_sum_ordering` produces, `verify` returns exactly
the outcome of scanning the enumerated tuples for the first total-sum
decrease. -/
lemma verify_eq_firstViol (partition : List (List Nat)) :
    verify partition (partition.map (fun g => 2 ^ g.length)) =
      some (match firstViol
          (fun d => totalSumD (partition.map build_digit_map) d partition.length)
          (enumDigits (partition.map (fun g => 2 ^ g.length))) with
        | none => (true, none)
        | some diag => (false, some diag)) := by
  by_cases hk : partition.length = 0
  · have hp : partition = [] := List.length_eq_zero.mp hk
    subst hp
    rfl
  · simp only [verify]
    rw [if_neg hk, digitRanges?_eq _ _ (by simp)]
    have hfold : (pyProduct
        (((partition.map (fun g => 2 ^ g.length)).reverse).map List.range)).map
          List.reverse =
        enumDigits (partition.map (fun g => 2 ^ g.length)) := rfl
    simp only [hfold]
    cases he : enumDigits (partition.map (fun g => 2 ^ g.length)) with
    | nil => rfl
    | cons d ds =>
      have hd : totalSum? (partition.map build_digit_map) d partition.length =
          some (totalSumD (partition.map build_digit_map) d partition.length) :=
        totalSum?_eq_totalSumD (by rw [he]; exact List.mem_cons_self d ds)
      simp only [verifyLoop, hd]
      rw [verifyLoop_eq_firstViolAux _ _ _ ds
        (fun d' hd' => totalSum?_eq_totalSumD
          (by rw [he]; exact List.mem_cons_of_mem _ hd'))]
      rfl

/-- C7: with the radices produced for the partition, `verify` walks the digit
tuples in mixed-radix lexicographic order — `enumDigits` lists exactly the
mixed-radix representations of `0, 1, 2, …` with group 0 the fastest-varying
digit and the last group the most significant — and returns
`(false, diagnostic)` at the first tuple whose total subset sum drops below
the immediately preceding total, with the diagnostic recording that tuple's
enumeration index, the tuple, its sum and the previous sum; it returns
`(true, None)` exactly when the totals never decrease. -/
theorem c7_verify_characterization (partition : List (List Nat))
    (radices : List Nat)
    (hr : radices = partition.map (fun g => 2 ^ g.length)) :
    enumDigits radices = (List.range radices.prod).map (natToDigits radices) ∧
    verify partition radices =
      some (match firstViol
          (fun d => totalSumD (partition.map build_digit_map) d partition.length)
          (enumDigits radices) with
        | none => (true, none)
        | some diag => (false, some diag)) ∧
    (verify partition radices = some (true, none) ↔
      List.Chain' (· ≤ ·) ((enumDigits radices).map
        (fun d => totalSumD (partition.map build_digit_map) d partition.length))) := by
  subst hr
  refine ⟨enumDigits_eq_counting _, verify_eq_firstViol partition, ?_⟩
  rw [verify_eq_firstViol partition, ← firstViol_none_iff]
  cases hfv : firstViol
      (fun d => totalSumD (partition.map build_digit_map) d partition.length)
      (enumDigits (partition.map (fun g => 2 ^ g.length))) with
  | none => simp
  | some diag => simp

/-- C7 witness at `partition = [[1], [5, 5]]`, `radices = [2, 4]`. -/
theorem c7_verify_characterization_witness :
    ([2, 4] = [[1], [5, 5]].map (fun g : List Nat => 2 ^ g.length)) ∧
    (enumDigits [2, 4] = (List.range ([2, 4] : List Nat).prod).map (natToDigits [2, 4]) ∧
    verify [[1], [5, 5]] [2, 4] =
      some (match firstViol
          (fun d => totalSumD ([[1], [5, 5]].map build_digit_map) d
            ([[1], [5, 5]] : List (List Nat)).length)
          (enumDigits [2, 4]) with
        | none => (true, none)
        | some diag => (false, some diag)) ∧
    (verify [[1], [5, 5]] [2, 4] = some (true, none) ↔
      List.Chain' (· ≤ ·) ((enumDigits [2, 4]).map
        (fun d => totalSumD ([[1], [5, 5]].map build_digit_map) d
          ([[1], [5, 5]] : List (List Nat)).length)))) :=
  ⟨by decide, c7_verify_characterization [[1], [5, 5]] [2, 4] (by decide)⟩

/-- C10: when `radices` is groupwise `2 ^ (group length)` — as
`subset_sum_ordering` guarantees — every digit map has exactly
`2 ^ (group length)` entries, every subscript taken by `verify` is in
bounds, and `verify` terminates normally with some
`(boolean, optional diagnostic)` pair (it never raises, i.e. never returns
`none` in this model). -/
theorem c10_verify_total (partition : List (List Nat)) (radices : List Nat)
    (hr : radices = partition.map (fun g => 2 ^ g.length)) :
    (∀ g ∈ partition, (build_digit_map g).length = 2 ^ g.length) ∧
    ∃ b d, verify partition radices = some (b, d) := by
  subst hr
  refine ⟨fun g _ => build_digit_map_length g, ?_⟩
  rw [verify_eq_firstViol]
  exact ⟨_, _, rfl⟩

/-- C10 witness at `partition = [[1], [5, 5]]`, `radices = [2, 4]`. -/
theorem c10_verify_total_witness :
    ([2, 4] = [[1], [5, 5]].map (fun g : List Nat => 2 ^ g.length)) ∧
    ((∀ g ∈ [[1], [5, 5]], (build_digit_map g).length = 2 ^ g.length) ∧
      ∃ b d, verify [[1], [5, 5]] [2, 4] = some (b, d)) :=
  ⟨by decide, c10_verify_total [[1], [5, 5]] [2, 4] (by decide)⟩

/-! ### Concrete evaluations -/

/-- C1: the claim says `verify(subset_sum_ordering(nums))` returns
`(true, None)` for every sequence of positive integers.  The code itself
refutes this on the repository's own motivating example `[1, 20, 5, 6, 2]`:
the partitioner produces `[[1], [2], [5, 6], [20]]` and `verify` finds a sum
decrease (8 to 6) at enumeration index 8, digit tuple `(0, 0, 2, 0)`, so it
returns `(false, diagnostic)` instead of `(true, None)`. -/
theorem c1_core_law_fails :
    verify (subset_sum_ordering [1, 20, 5, 6, 2]).1
        (subset_sum_ordering [1, 20, 5, 6, 2]).2 =
      some (false, some ⟨8, [0, 0, 2, 0], 6, 8⟩) := by decide

/-- C2 counterexample: on `[1, 20, 5, 6, 2]` the code does not return the
claimed partition `[[1, 2, 5, 6], [20]]` with radices `[16, 2]`, and
`verify` on the pair it does return is not `(true, None)`. -/
theorem c2_claimed_output_false :
    ¬(subset_sum_ordering [1, 20, 5, 6, 2] = ([[1, 2, 5, 6], [20]], [16, 2]) ∧
      verify (subset_sum_ordering [1, 20, 5, 6, 2]).1
          (subset_sum_ordering [1, 20, 5, 6, 2]).2 = some (true, none)) := by
  decide

/-- C2 amended: on `[1, 20, 5, 6, 2]` (sorted `[1, 2, 5, 6, 20]`) the greedy
partitioner splits whenever the running prefix sum is below the next element,
giving `[[1], [2], [5, 6], [20]]` with radices `[2, 2, 4, 2]`, and `verify`
on that result returns `(false, {at_index 8, digits (0, 0, 2, 0), sum 6,
prev_sum 8})`. -/
theorem c2_actual_output :
    subset_sum_ordering [1, 20, 5, 6, 2] = ([[1], [2], [5, 6], [20]], [2, 2, 4, 2]) ∧
    verify (subset_sum_ordering [1, 20, 5, 6, 2]).1
        (subset_sum_ordering [1, 20, 5, 6, 2]).2 =
      some (false, some ⟨8, [0, 0, 2, 0], 6, 8⟩) := by decide

/-- C3 counterexample: on `[1, 1, 2, 4]` the code does not return the claimed
partition `[[1, 1, 2], [4]]` with radices `[8, 2]`: after 2 joins the first
group the prefix sum is 4, and `4 < 4` is false, so 4 joins as well. -/
theorem c3_claimed_output_false :
    subset_sum_ordering [1, 1, 2, 4] ≠ ([[1, 1, 2], [4]], [8, 2]) := by decide

/-- C3 amended: on `[1, 1, 2, 4]` the element 2 joins the first group because
`1 + 1 < 2` is false, and the element 4 also joins because `1 + 1 + 2 < 4` is
false, so the result is the single group `[[1, 1, 2, 4]]` with radices
`[16]`, and `verify` on that result returns `(true, None)`. -/
theorem c3_actual_output :
    subset_sum_ordering [1, 1, 2, 4] = ([[1, 1, 2, 4]], [16]) ∧
    verify (subset_sum_ordering [1, 1, 2, 4]).1
        (subset_sum_ordering [1, 1, 2, 4]).2 = some (true, none) := by decide

/-- C9: on the empty input `subset_sum_ordering` returns the pair of an empty
partition and an empty radix vector, and `verify` on an empty partition with
empty radices returns `(true, None)`. -/
theorem c9_empty_input :
    subset_sum_ordering [] = ([], []) ∧ verify [] [] = some (true, none) := by
  decide

end SubsetSumOrdering
